import Mathlib

/-!
Verification development for the retrieval core of the ai-chat-knowledgebase
repository (source of truth: netlify/functions/shared/articleStore.ts).

Modelling conventions:
* JavaScript strings are modelled as lists of code points (`Str := List Nat`);
  `ofStr` converts a Lean string literal to that representation.
* JavaScript numbers are modelled as rationals.  Every numeric value that the
  chunker manipulates is a small rational; the one binary-rounding subtlety
  (the literal `0.2` in `overlapChars`) is discussed at `overlapCharsOf`.
* The OpenAI embedding call `generateEmbedding` is an external service that can
  fail; it is modelled as a parameter `embed : Str → Option (List ℚ)` where
  `none` models a call that throws.
* Cosine similarity is evaluated by the source over IEEE doubles; no claim
  depends on its numeric values, so the similarity function is abstracted as a
  parameter `sim : List ℚ → List ℚ → ℚ` and all theorems hold for every `sim`.
* The best-effort `/tmp` persistence is an external input: `loaded` is `some l`
  when a snapshot parses to the array `l`, `none` when the file is missing or
  unreadable.
-/

/-- A JavaScript string, as its list of code points. -/
abbrev Str := List Nat

/-- Convert a Lean string literal to the code-point model. -/
def ofStr (s : String) : Str := s.toList.map Char.toNat

/-- Whitespace code points recognised by the model: space, tab, line feed,
carriage return.  These are the whitespace characters that actually occur in
the repository's data; both `jsTrim` and query splitting use this predicate, so
all comparisons in the development are consistent. -/
def wsChar (c : Nat) : Bool := c = 32 || c = 9 || c = 10 || c = 13

/-- Model of `String.prototype.trim`: strip leading and trailing whitespace. -/
def jsTrim (s : Str) : Str :=
  ((s.dropWhile wsChar).reverse.dropWhile wsChar).reverse

/-- Model of `String.prototype.toLowerCase` on one ASCII code point. -/
def lowerChar (c : Nat) : Nat := if 65 ≤ c ∧ c ≤ 90 then c + 32 else c

/-- Model of `String.prototype.toLowerCase`. -/
def lowerStr (s : Str) : Str := s.map lowerChar

/-- Model of `String.prototype.slice(a, b)` for integer arguments: both indices
are clamped to `[0, length]` and the characters in between are returned. -/
def jsSlice (s : Str) (a b : Int) : Str :=
  let from0 : Nat := (min (max a 0) (s.length : Int)).toNat
  let to0 : Nat := (min (max b 0) (s.length : Int)).toNat
  (s.drop from0).take (to0 - from0)

/-- Model of `String.prototype.split(/\s+/)`: split at each maximal run of
whitespace.  As in JavaScript, a leading run contributes a leading empty token,
a trailing run contributes a trailing empty token, and the empty string yields
the single token `""`. -/
def splitRuns (p : Nat → Bool) : Str → List Str
  | [] => [[]]
  | c :: cs =>
    if p c then
      match cs with
      | [] => [[], []]
      | c2 :: _ => if p c2 then splitRuns p cs else [] :: splitRuns p cs
    else
      match splitRuns p cs with
      | [] => [[c]]
      | w :: ws => (c :: w) :: ws

/-- The word list the search code actually uses: `query.split(/\s+/)`. -/
def jsSplitWs (s : Str) : List Str := splitRuns wsChar s

/-- The word list as the specification describes it: the query "split on
whitespace into words", i.e. only the non-empty whitespace-delimited tokens. -/
def specWords (s : Str) : List Str := (jsSplitWs s).filter (fun w => ¬w = [])

/-- Helper for `jsLastIndexOf`: scan the whole string keeping the last index
`≤ pos` at which the code point occurs. -/
def lastIdxAux (c : Nat) (pos : Int) : Str → Int → Int → Int
  | [], _, best => best
  | d :: rest, i, best =>
      lastIdxAux c pos rest (i + 1) (if i ≤ pos ∧ d = c then i else best)

/-- Model of `String.prototype.lastIndexOf(ch, position)` for a one-character
needle: the largest index `≤ position` (clamped to `[0, length]`) holding that
character, or `-1`. -/
def jsLastIndexOf (s : Str) (c : Nat) (pos : Int) : Int :=
  lastIdxAux c (min (max pos 0) (s.length : Int)) s 0 (-1)

/-- The clamp `Math.max(100, Math.min(maxTokens, 2000))` from `chunkText`. -/
def safeMaxTokens (maxTokens : ℚ) : ℚ := max 100 (min maxTokens 2000)

/-- The clamp `Math.min(safeMaxTokens * 4, 8000)` from `chunkText`. -/
def maxCharsOf (maxTokens : ℚ) : ℚ := min (safeMaxTokens maxTokens * 4) 8000

/-- The clamp `Math.min(overlapTokens * 4, maxChars * 0.2)` from `chunkText`.
The source multiplies by the IEEE double `0.2`, modelled here as the exact
rational `1/5`; for the default budgets (`maxChars = 3200`) the double product
rounds to exactly `640`, so the default overlap is exactly `400` in both
semantics, and every general-parameter theorem below quantifies over arbitrary
rational overlap values, which cover the rounded double values as well. -/
def overlapCharsOf (maxTokens overlapTokens : ℚ) : ℚ :=
  min (overlapTokens * 4) (maxCharsOf maxTokens / 5)

/-- One window-end computation of the chunking loop: take up to `maxChars`
characters, and if that does not reach the end of the text, look backwards for
the last period or line break and cut there when it lies past the midpoint of
the window. -/
def windowEnd (t : Str) (mc : ℚ) (start : ℚ) : ℚ :=
  let e0 : ℚ := min (start + mc) (t.length : ℚ)
  if e0 < (t.length : ℚ) then
    let lastPeriod : Int := jsLastIndexOf t 46 ⌊e0⌋
    let lastNewline : Int := jsLastIndexOf t 10 ⌊e0⌋
    let breakPoint : Int := max lastPeriod lastNewline
    if (breakPoint : ℚ) > start + mc / 2 then ((breakPoint : ℚ) + 1) else e0
  else e0

/-- The window advance `start = Math.max(end - overlapChars, start + 1)`. -/
def stepStart (e ov start : ℚ) : ℚ := max (e - ov) (start + 1)

/-- The while loop of `chunkText`.  The first component of the result is
exactly the segment list the source produces; the second component is
verification instrumentation recording whether some window reached the end of
the text (it is not part of the source's return value).

The loop recurses structurally on `fuel`, an upper bound on the number of
remaining iterations, so that the definition evaluates inside the kernel.
`chunkTextFull` supplies `cleanText.length` as the initial fuel; since every
iteration advances the window start by at least one character
(`stepStart e ov start ≥ start + 1`) and the loop stops once the start passes
the text length, that fuel is sufficient and the fuel-exhaustion branch (which
returns the same value as the ordinary loop exit) is never taken; this is
proved by the lemmas below, which only ever assume
`fuel ≥ t.length - ⌊start⌋`. -/
def chunkLoop (t : Str) (mc ov : ℚ) :
    (start : ℚ) → (count : Nat) → (reached : Bool) → (fuel : Nat) → List Str × Bool
  | start, _, reached, 0 => ([], reached || decide ((t.length : ℚ) ≤ start))
  | start, count, reached, fuel + 1 =>
    if start < (t.length : ℚ) ∧ count < 50 then
      let e := windowEnd t mc start
      let seg := jsTrim (jsSlice t ⌊start⌋ ⌊e⌋)
      let start2 := stepStart e ov start
      let reached2 := reached || decide (e = (t.length : ℚ))
      if seg = [] then chunkLoop t mc ov start2 count reached2 fuel
      else
        let rest := chunkLoop t mc ov start2 (count + 1) reached2 fuel
        (seg :: rest.1, rest.2)
    else ([], reached || decide ((t.length : ℚ) ≤ start))

/-- `chunkText` from articleStore.ts, with the instrumentation bit of
`chunkLoop` kept alongside the segment list. -/
def chunkTextFull (text : Str) (maxTokens overlapTokens : ℚ) : List Str × Bool :=
  if text = [] then ([], true)
  else
    let cleanText := jsTrim text
    if cleanText = [] then ([], true)
    else
      let maxChars := maxCharsOf maxTokens
      let overlapChars := overlapCharsOf maxTokens overlapTokens
      if (cleanText.length : ℚ) ≤ maxChars then ([cleanText], true)
      else chunkLoop cleanText maxChars overlapChars 0 0 false cleanText.length

/-- `chunkText(text, maxTokens, overlapTokens)`: the segment list returned by
the source.  The defaults of the source are `maxTokens = 800`,
`overlapTokens = 100`. -/
def chunkText (text : Str) (maxTokens overlapTokens : ℚ) : List Str :=
  (chunkTextFull text maxTokens overlapTokens).1

/-- True when the chunking loop covered the whole text: some window reached
the end of the (trimmed) text before the loop stopped. -/
def chunkComplete (text : Str) (maxTokens overlapTokens : ℚ) : Bool :=
  (chunkTextFull text maxTokens overlapTokens).2

/-- An article chunk (interface ArticleChunk in articleStore.ts).  The
`embedding` field is optional exactly as in the source. -/
structure ArticleChunk where
  id : Str
  articleId : Str
  articleName : Str
  text : Str
  url : Str
  lastModified : Str
  embedding : Option (List ℚ)
  chunkIndex : Nat
  deriving DecidableEq, Repr

/-- An article (interface Article in articleStore.ts). -/
structure Article where
  id : Str
  name : Str
  text : Str
  url : Str
  lastModified : Str
  chunks : List ArticleChunk
  deriving DecidableEq, Repr

/-- The module-level mutable state of articleStore.ts: the `articleStore` map
(modelled as an association list keyed by article id) and the flat
`articleChunks` collection. -/
structure StoreState where
  articles : List (Str × Article)
  chunks : List ArticleChunk
  deriving DecidableEq, Repr

/-- Decimal rendering of a natural number, as code points. -/
def natStr (n : Nat) : Str := (Nat.toDigits 10 n).map Char.toNat

/-- The chunk id template literal from storeArticle. -/
def chunkIdOf (articleId : Str) (i : Nat) : Str :=
  articleId ++ ofStr "_chunk_" ++ natStr i

/-- The validation error message thrown by storeArticle. -/
def noTextMsg (articleId : Str) : Str :=
  ofStr "Article " ++ articleId ++ ofStr " has no valid text content"

/-- The per-segment loop of `storeArticle`: for each text segment, in order,
attempt the embedding call; on success build and keep the chunk, on failure
skip the segment.  The running index `i` advances for every segment, exactly
as the `for` loop counter in the source does. -/
def mkChunks (a : Article) (embed : Str → Option (List ℚ)) :
    List Str → Nat → List ArticleChunk
  | [], _ => []
  | s :: rest, i =>
    match embed s with
    | some e =>
        { id := chunkIdOf a.id i
          articleId := a.id
          articleName := a.name
          text := s
          url := a.url
          lastModified := a.lastModified
          embedding := some e
          chunkIndex := i } :: mkChunks a embed rest (i + 1)
    | none => mkChunks a embed rest (i + 1)

/-- `storeArticle(article)` from articleStore.ts.  The result is the new store
state paired with `some errorMessage` when the call throws (only the text
validation throws; in that case the state is returned untouched) and `none`
when it returns normally.  The best-effort `saveChunksToFile` call only logs
and never alters the in-memory state, so it does not appear in the model. -/
def storeArticle (st : StoreState) (a : Article)
    (embed : Str → Option (List ℚ)) : StoreState × Option Str :=
  if jsTrim a.text = [] then (st, some (noTextMsg a.id))
  else
    let remaining := st.chunks.filter (fun c => ¬c.articleId = a.id)
    let textChunks := chunkText a.text 800 100
    if textChunks = [] then ({ st with chunks := remaining }, none)
    else
      let newChunks := mkChunks a embed textChunks 0
      let a2 := { a with chunks := newChunks }
      ({ articles := (a.id, a2) :: st.articles.filter (fun p => ¬p.1 = a.id)
         chunks := remaining ++ newChunks }, none)

/-- The stable descending sort performed by `.sort((a, b) => b.key - a.key)`.
JavaScript's `Array.prototype.sort` is stable, and a stable sort by a total
key is unique, so insertion sort with the non-strict descending relation is
an exact model. -/
def stableSortDesc (key : α → ℚ) (l : List α) : List α :=
  l.insertionSort (fun x y => key y ≤ key x)

/-- Model of `String.prototype.includes`: substring containment. -/
def strIncludes (needle hay : Str) : Bool := decide (needle <:+: hay)

/-- The keyword score computed in the fallback branch of `searchArticles`:
full-query substring matches on the lowercased title and body score 10 and 5,
and every token of `query.toLowerCase().split(/\s+/)` scores 3 for a title
match and 1 for a body match. -/
def keywordScore (query : Str) (ch : ArticleChunk) : ℚ :=
  let queryLower := lowerStr query
  let textLower := lowerStr ch.text
  let titleLower := lowerStr ch.articleName
  let base : ℚ :=
    (if strIncludes queryLower titleLower then 10 else 0) +
    (if strIncludes queryLower textLower then 5 else 0)
  let queryWords := jsSplitWs queryLower
  base + (queryWords.map (fun w =>
    (if strIncludes w titleLower then (3 : ℚ) else 0) +
    (if strIncludes w textLower then 1 else 0))).sum

/-- The keyword score as the specification states it: identical to
`keywordScore` except that the words are the non-empty whitespace-separated
tokens of the query. -/
def specKeywordScore (query : Str) (ch : ArticleChunk) : ℚ :=
  let queryLower := lowerStr query
  let textLower := lowerStr ch.text
  let titleLower := lowerStr ch.articleName
  let base : ℚ :=
    (if strIncludes queryLower titleLower then 10 else 0) +
    (if strIncludes queryLower textLower then 5 else 0)
  base + ((specWords queryLower).map (fun w =>
    (if strIncludes w titleLower then (3 : ℚ) else 0) +
    (if strIncludes w textLower then 1 else 0))).sum

/-- The keyword-mode pipeline of the specification (claim C7): score every
chunk, drop the zero scores, sort descending with ties in store order, and
take the first `limit`. -/
def specKeywordSearch (chunks : List ArticleChunk) (query : Str) (limit : Nat) :
    List ArticleChunk :=
  (stableSortDesc (specKeywordScore query)
    (chunks.filter (fun c => (0 : ℚ) < specKeywordScore query c))).take limit

/-- The in-memory chunk collection as seen by `searchArticles` after its
`loadChunksFromFile` bootstrap: when the collection is empty and the persisted
snapshot parses to a non-empty array, that array replaces the collection;
otherwise the collection is unchanged. -/
def effectiveChunks (chunks : List ArticleChunk)
    (loaded : Option (List ArticleChunk)) : List ArticleChunk :=
  if chunks = [] then
    match loaded with
    | some l => if l = [] then chunks else l
    | none => chunks
  else chunks

/-- What one `searchArticles` call returns, together with whether the demo
seeder `createDemoChunks()` was invoked during the call. -/
structure SearchOutcome where
  result : List ArticleChunk
  seederInvoked : Bool
  deriving DecidableEq, Repr

/-- `searchArticles(query, limit)` from articleStore.ts.

The source invokes the async `createDemoChunks()` WITHOUT `await` when the
collection is still empty after the load attempt; `createDemoChunks` pushes
its first chunk only after its first suspension point (the embedding call), so
no chunk it creates is visible to the remainder of the invoking call.  The
model therefore records the invocation in `seederInvoked` and continues with
the still-empty collection, which is the source's synchronous behaviour.

Inside the `try` block, the only operation that can throw is the query
embedding call of semantic mode (`embed query = none`); the `catch` branch
returns the first `limit` chunks of the collection unranked. -/
def searchArticles (chunks : List ArticleChunk) (loaded : Option (List ArticleChunk))
    (embed : Str → Option (List ℚ)) (sim : List ℚ → List ℚ → ℚ)
    (query : Str) (limit : Nat) : SearchOutcome :=
  let cs := effectiveChunks chunks loaded
  let seeder := decide (cs = [])
  if cs = [] then { result := [], seederInvoked := seeder }
  else
    let chunksWithEmbeddings := cs.filter (fun c => c.embedding.isSome)
    if chunksWithEmbeddings = [] then
      { result :=
          (stableSortDesc (keywordScore query)
            (cs.filter (fun c => (0 : ℚ) < keywordScore query c))).take limit
        seederInvoked := seeder }
    else
      match embed query with
      | some queryEmbedding =>
          { result :=
              (stableSortDesc (fun c => sim queryEmbedding (c.embedding.getD []))
                chunksWithEmbeddings).take limit
            seederInvoked := seeder }
      | none => { result := cs.take limit, seederInvoked := seeder }

/-- One demo chunk template of `createDemoChunks`, before the embedding
attempt. -/
def demoTemplate (idStr artIdStr nameStr textStr urlStr : String) (now : Str) :
    ArticleChunk :=
  { id := ofStr idStr
    articleId := ofStr artIdStr
    articleName := ofStr nameStr
    text := ofStr textStr
    url := ofStr urlStr
    lastModified := now
    embedding := none
    chunkIndex := 0 }

/-- The three hand-authored demo chunks of `createDemoChunks`, with
`lastModified` instantiated to the call-time timestamp `now`. -/
def demoTemplates (now : Str) : List ArticleChunk :=
  [ demoTemplate "demo_android_chunk_0" "demo_android" "Testing Your Android App"
      "To test your Android app effectively, start by using Android Studio's built-in testing tools. For unit testing, use JUnit to test individual components and business logic. For UI testing, implement Espresso tests to verify user interactions and interface behavior. Always test on both Android emulators and physical devices to ensure broad compatibility across different Android versions, screen sizes, and device configurations. Consider using Firebase Test Lab for comprehensive device testing. Set up continuous integration to run tests automatically on each code commit."
      "https://support.aloompa.com/article/591-testing-your-android-app" now,
    demoTemplate "demo_ios_chunk_0" "demo_ios" "Testing Your iOS App"
      "For comprehensive iOS app testing, utilize Xcode's integrated testing framework. Use XCTest for unit testing to verify individual functions and classes work correctly. Implement UI tests using XCUITest to automate user interface interactions and validate app flows. Test on both iOS Simulator and physical devices to ensure compatibility across different iOS versions and device types (iPhone, iPad). Use TestFlight for beta testing with external users before App Store submission. Configure code coverage reports to ensure adequate test coverage of your codebase."
      "https://support.aloompa.com/article/590-testing-your-ios-app" now,
    demoTemplate "demo_push_chunk_0" "demo_push" "Push Notifications Setup Guide"
      "Push notifications enable real-time communication with your app users. To implement push notifications: 1) Configure Firebase Cloud Messaging (FCM) for Android and Apple Push Notification service (APNs) for iOS. 2) Set up your server backend to send notifications using the appropriate APIs. 3) Implement notification handling in your app code to receive and display messages. 4) Test notifications thoroughly on both platforms and different device states (foreground, background, terminated). 5) Consider notification categories, rich media attachments, and deep linking for enhanced user experience."
      "https://support.aloompa.com/collection/24-festapp-cms" now ]

/-- The chunks that ONE AWAITED run of `createDemoChunks` appends to the
store: each demo chunk gets its embedding when the embedding call succeeds and
is appended WITHOUT an embedding when it fails (the seeder, unlike
`storeArticle`, never drops an item).  The source calls this function without
`await`, so none of these chunks is visible to the `searchArticles` call that
triggers the seeding. -/
def createDemoChunks (embed : Str → Option (List ℚ)) (now : Str) :
    List ArticleChunk :=
  (demoTemplates now).map (fun ch =>
    match embed ch.text with
    | some e => { ch with embedding := some e }
    | none => ch)

/-- A whitespace-only article used to exercise the validation branch. -/
def wsArticle : Article :=
  { id := ofStr "art1", name := ofStr "Blank", text := ofStr "   ",
    url := ofStr "http", lastModified := ofStr "now", chunks := [] }

/-- A stored chunk without an embedding, used in concrete search scenarios. -/
def chunkNoEmb : ArticleChunk :=
  { id := ofStr "plain_chunk_0", articleId := ofStr "plain",
    articleName := ofStr "Plain Article", text := ofStr "some text",
    url := ofStr "http", lastModified := ofStr "now",
    embedding := none, chunkIndex := 0 }

/-- A stored chunk with an embedding, used in concrete search scenarios. -/
def chunkEmb : ArticleChunk :=
  { id := ofStr "vec_chunk_0", articleId := ofStr "vec",
    articleName := ofStr "Vector Article", text := ofStr "other text",
    url := ofStr "http", lastModified := ofStr "now",
    embedding := some [1, 0], chunkIndex := 0 }

/-- A small article whose text fits into a single chunk. -/
def tinyArticle : Article :=
  { id := ofStr "tiny", name := ofStr "Tiny", text := ofStr "hello world",
    url := ofStr "u", lastModified := ofStr "m", chunks := [] }

/-- A second version of the same article (same id, different text). -/
def tinyArticleB : Article :=
  { id := ofStr "tiny", name := ofStr "Tiny B", text := ofStr "second version",
    url := ofStr "u", lastModified := ofStr "m2", chunks := [] }

def c3Text : Str := List.replicate 3201 97

def c3Article : Article :=
  { id := ofStr "big", name := ofStr "Big", text := c3Text,
    url := ofStr "u", lastModified := ofStr "m", chunks := [] }

def c3Embed : Str → Option (List ℚ) := fun s => if s.length = 3200 then none else some [1]

/-- A chunk whose title and body contain no whitespace, used to separate the
code's keyword scoring from the specified one. -/
def chunkPlainX : ArticleChunk :=
  { id := ofStr "x_chunk_0", articleId := ofStr "x", articleName := ofStr "X",
    text := ofStr "y", url := ofStr "u", lastModified := ofStr "t",
    embedding := none, chunkIndex := 0 }

/-- The chunk list produced by the loop never exceeds the hard cap minus the
number of chunks already produced. -/
lemma chunkLoop_length_le (t : Str) (mc ov : ℚ) :
    ∀ (fuel : Nat) (start : ℚ) (count : Nat) (reached : Bool),
      (chunkLoop t mc ov start count reached fuel).1.length ≤ 50 - count := by
  intro fuel
  induction fuel with
  | zero =>
      intro start count reached
      rw [chunkLoop]
      simp
  | succ fuel ih =>
      intro start count reached
      rw [chunkLoop]
      by_cases h1 : start < (t.length : ℚ) ∧ count < 50
      · rw [if_pos h1]
        by_cases h2 : jsTrim (jsSlice t ⌊start⌋ ⌊windowEnd t mc start⌋) = []
        · simp only [if_pos h2]
          exact ih _ _ _
        · simp only [if_neg h2, List.length_cons]
          have h3 := ih (stepStart (windowEnd t mc start) ov start) (count + 1)
            (reached || decide (windowEnd t mc start = (t.length : ℚ)))
          have h4 := h1.2
          omega
      · rw [if_neg h1]
        simp

/-- C9: for every input text and every `maxTokens` and `overlapTokens` values,
`chunkText` terminates (it is a total function of this development, defined by
well-founded recursion on the window start), returns at most 50 segments, and
its window advance `stepStart` moves the window start forward by at least one
character on every iteration, whatever the overlap value. -/
theorem chunkText_cap_and_progress (t : Str) (mt ot : ℚ) :
    (chunkText t mt ot).length ≤ 50 ∧
      ∀ e ov s : ℚ, s + 1 ≤ stepStart e ov s := by
  constructor
  · simp only [chunkText, chunkTextFull]
    split_ifs with h1 h2 h3
    · simp
    · simp
    · simp
    · have := chunkLoop_length_le (jsTrim t) (maxCharsOf mt)
        (overlapCharsOf mt ot) (jsTrim t).length 0 0 false
      omega
  · intro e ov s
    exact le_max_right _ _

/-- C6: storing an article whose text trims to the empty string throws the
validation error before touching anything: the returned state is exactly the
input state, paired with the validation message. -/
theorem storeArticle_empty_text_rejected (st : StoreState) (a : Article)
    (embed : Str → Option (List ℚ)) (h : jsTrim a.text = []) :
    storeArticle st a embed = (st, some (noTextMsg a.id)) := by
  simp [storeArticle, h]

/-- Witness for C6 at a concrete whitespace-only article. -/
theorem storeArticle_empty_text_rejected_witness :
    jsTrim wsArticle.text = [] ∧
      storeArticle ⟨[], []⟩ wsArticle (fun _ => none) =
        (⟨[], []⟩, some (noTextMsg wsArticle.id)) :=
  ⟨by decide, storeArticle_empty_text_rejected _ _ _ (by decide)⟩

/-- Membership is preserved by the stable descending sort. -/
lemma mem_stableSortDesc {α : Type} (key : α → ℚ) (l : List α) (x : α) :
    x ∈ stableSortDesc key l ↔ x ∈ l :=
  (List.perm_insertionSort _ l).mem_iff

/-- C2, amended: when at least one chunk in the (bootstrapped) collection
carries an embedding AND the query-embedding call succeeds, `searchArticles`
only returns chunks that carry an embedding: semantic mode ranks the filtered
sub-collection `chunksWithEmbeddings` and nothing else. -/
theorem searchArticles_semantic_only_embedded (chunks : List ArticleChunk)
    (loaded : Option (List ArticleChunk)) (embed : Str → Option (List ℚ))
    (sim : List ℚ → List ℚ → ℚ) (query : Str) (limit : Nat) (qe : List ℚ)
    (hs : (effectiveChunks chunks loaded).filter (fun c => c.embedding.isSome) ≠ [])
    (he : embed query = some qe) :
    ∀ c ∈ (searchArticles chunks loaded embed sim query limit).result,
      c.embedding.isSome := by
  intro c hc
  have h1 : effectiveChunks chunks loaded ≠ [] := by
    intro h
    rw [h] at hs
    simp at hs
  simp only [searchArticles] at hc
  rw [if_neg h1, if_neg hs, he] at hc
  simp only at hc
  have h2 := List.take_subset _ _ hc
  rw [mem_stableSortDesc] at h2
  exact (List.mem_filter.mp h2).2

/-- Counterexample to C2 as stated: the store holds an embedded chunk (so the
claim's premise is satisfied), but for a query whose embedding call fails the
catch-all fallback returns the first `limit` chunks of the store in order,
including `chunkNoEmb`, which carries no embedding. -/
theorem searchArticles_semantic_counterexample :
    (searchArticles [chunkNoEmb, chunkEmb] none (fun _ => none) (fun _ _ => 0)
        (ofStr "query") 2).result = [chunkNoEmb, chunkEmb] ∧
      chunkNoEmb.embedding = none ∧ chunkEmb.embedding.isSome := by
  decide

/-- Witness for the amended C2 at a concrete store and a succeeding
query-embedding call. -/
theorem searchArticles_semantic_only_embedded_witness :
    (effectiveChunks [chunkNoEmb, chunkEmb] none).filter
        (fun c => c.embedding.isSome) ≠ [] ∧
      ∀ c ∈ (searchArticles [chunkNoEmb, chunkEmb] none (fun _ => some [1, 0])
          (fun _ _ => 0) (ofStr "query") 2).result, c.embedding.isSome :=
  ⟨by decide,
    searchArticles_semantic_only_embedded _ _ _ _ _ _ [1, 0] (by decide) rfl⟩

/-- C4: whenever the ranking computation throws — the only throwing operation
inside the `try` block is the query-embedding call of semantic mode — the
`catch` branch returns the first `limit` chunks of the collection in their
existing order.  The model of `searchArticles` is a total function: no input
makes it propagate a failure to its caller. -/
theorem searchArticles_degrades_on_embed_failure (chunks : List ArticleChunk)
    (loaded : Option (List ArticleChunk)) (embed : Str → Option (List ℚ))
    (sim : List ℚ → List ℚ → ℚ) (query : Str) (limit : Nat)
    (hs : (effectiveChunks chunks loaded).filter (fun c => c.embedding.isSome) ≠ [])
    (he : embed query = none) :
    (searchArticles chunks loaded embed sim query limit).result =
      (effectiveChunks chunks loaded).take limit := by
  have h1 : effectiveChunks chunks loaded ≠ [] := by
    intro h
    rw [h] at hs
    simp at hs
  simp only [searchArticles]
  rw [if_neg h1, if_neg hs, he]

/-- Witness for C4 at a concrete store whose query-embedding call fails. -/
theorem searchArticles_degrades_on_embed_failure_witness :
    (effectiveChunks [chunkEmb, chunkNoEmb] none).filter
        (fun c => c.embedding.isSome) ≠ [] ∧
      (searchArticles [chunkEmb, chunkNoEmb] none (fun _ => none)
          (fun _ _ => 0) (ofStr "query") 1).result =
        (effectiveChunks [chunkEmb, chunkNoEmb] none).take 1 :=
  ⟨by decide,
    searchArticles_degrades_on_embed_failure _ _ _ _ _ _ (by decide) rfl⟩

lemma jsTrim_eq_rdrop (s : Str) :
    jsTrim s = (s.dropWhile wsChar).rdropWhile wsChar := rfl

lemma jsTrim_cons_ne_nil (c : Nat) (x : Str) (hc : wsChar c = false) :
    jsTrim (c :: x) ≠ [] := by
  rw [jsTrim_eq_rdrop, List.dropWhile_cons]
  simp only [hc]
  rw [Ne, List.rdropWhile_eq_nil_iff]
  intro h
  have := h c (List.mem_cons_self _ _)
  simp [hc] at this

lemma head_jsTrim_not_ws (s : Str) (c : Nat) (x : Str) (h : jsTrim s = c :: x) :
    wsChar c = false := by
  rw [jsTrim_eq_rdrop] at h
  have hpre := List.rdropWhile_prefix wsChar (s.dropWhile wsChar)
  rw [h] at hpre
  obtain ⟨tail, htail⟩ := hpre
  have hne : s.dropWhile wsChar ≠ [] := by
    intro hn
    rw [hn] at htail
    simp at htail
  have hh := List.head_dropWhile_not wsChar s hne
  have hsome : (s.dropWhile wsChar).head? = some ((s.dropWhile wsChar).head hne) :=
    List.head?_eq_head hne
  have hc2 : (s.dropWhile wsChar).head? = some c := by
    rw [← htail]
    simp
  rw [hc2] at hsome
  have hce : c = (s.dropWhile wsChar).head hne := Option.some.inj hsome
  rw [hce]
  simpa using hh

lemma getLast_jsTrim_not_ws (s : Str) (h : jsTrim s ≠ []) :
    wsChar ((jsTrim s).getLast h) = false := by
  have h2 : (s.dropWhile wsChar).rdropWhile wsChar ≠ [] := h
  have h3 := List.rdropWhile_last_not wsChar (s.dropWhile wsChar) h2
  simpa using h3

lemma jsTrim_of_no_ws (s : Str) (h : ∀ c ∈ s, wsChar c = false) :
    jsTrim s = s := by
  rw [jsTrim_eq_rdrop]
  have h1 : s.dropWhile wsChar = s := by
    cases s with
    | nil => simp
    | cons c x =>
        rw [List.dropWhile_cons]
        simp [h c (List.mem_cons_self _ _)]
  rw [h1, List.rdropWhile_eq_self_iff]
  intro hl hws
  have := h _ (List.getLast_mem hl)
  simp [this] at hws

lemma lastIdxAux_le (c : Nat) (pos : Int) :
    ∀ (l : Str) (i best : Int), lastIdxAux c pos l i best ≤ max best pos := by
  intro l
  induction l with
  | nil => intro i best; rw [lastIdxAux]; exact le_max_left _ _
  | cons d rest ih =>
      intro i best
      rw [lastIdxAux]
      refine le_trans (ih _ _) (max_le ?_ (le_max_right _ _))
      by_cases hc : i ≤ pos ∧ d = c
      · rw [if_pos hc]; exact le_max_of_le_right hc.1
      · rw [if_neg hc]; exact le_max_left _ _

lemma jsLastIndexOf_le (s : Str) (c : Nat) (pos : Int) (hpos : 0 ≤ pos) :
    jsLastIndexOf s c pos ≤ pos := by
  unfold jsLastIndexOf
  refine le_trans (lastIdxAux_le _ _ _ _ _) (max_le (by omega) ?_)
  rw [max_eq_left hpos]
  exact min_le_left _ _

lemma floor_windowEnd_facts (t : Str) (mc start : ℚ) (h0 : 0 ≤ start)
    (h1 : start < (t.length : ℚ)) (hmc : 1 ≤ mc) :
    ⌊start⌋ < ⌊windowEnd t mc start⌋ ∧ windowEnd t mc start ≤ (t.length : ℚ) := by
  have hflen : ⌊(t.length : ℚ)⌋ = (t.length : Int) := Int.floor_natCast t.length
  have hsl : ⌊start⌋ < (t.length : Int) :=
    Int.floor_lt.mpr (by exact_mod_cast h1)
  have hfs : (0 : Int) ≤ ⌊start⌋ := Int.floor_nonneg.mpr h0
  have he0a : ⌊start⌋ + 1 ≤ ⌊min (start + mc) (t.length : ℚ)⌋ := by
    have hx : ⌊start⌋ + 1 ≤ ⌊start + mc⌋ := by
      have hy : start + 1 ≤ start + mc := by linarith
      calc ⌊start⌋ + 1 = ⌊start + 1⌋ := (Int.floor_add_one start).symm
        _ ≤ ⌊start + mc⌋ := Int.floor_le_floor hy
    rcases le_total (start + mc) ((t.length : ℚ)) with hcase | hcase
    · rw [min_eq_left hcase]
      exact hx
    · rw [min_eq_right hcase, hflen]
      omega
  have he0b : min (start + mc) (t.length : ℚ) ≤ (t.length : ℚ) := min_le_right _ _
  simp only [windowEnd]
  split_ifs with hlt hbp
  · set B : Int := max (jsLastIndexOf t 46 ⌊min (start + mc) (t.length : ℚ)⌋)
      (jsLastIndexOf t 10 ⌊min (start + mc) (t.length : ℚ)⌋) with hB
    have hfe0 : (0 : Int) ≤ ⌊min (start + mc) (t.length : ℚ)⌋ := by omega
    have hBle : B ≤ ⌊min (start + mc) (t.length : ℚ)⌋ := by
      rw [hB]
      exact max_le (jsLastIndexOf_le _ _ _ hfe0) (jsLastIndexOf_le _ _ _ hfe0)
    have he0lt : ⌊min (start + mc) (t.length : ℚ)⌋ < (t.length : Int) :=
      Int.floor_lt.mpr (by exact_mod_cast hlt)
    constructor
    · have hBgt : ⌊start⌋ < B := by
        have hq : ((⌊start⌋ : Int) : ℚ) < (B : ℚ) := by
          have hz : (⌊start⌋ : ℚ) ≤ start := Int.floor_le start
          have hmc2 : (0 : ℚ) < mc / 2 := by linarith
          linarith
        exact_mod_cast hq
      have hcast : ((B : ℚ) + 1) = (((B + 1 : Int)) : ℚ) := by push_cast; ring
      rw [hcast, Int.floor_intCast]
      omega
    · have hB1 : B + 1 ≤ (t.length : Int) := by omega
      have : ((B : ℚ) + 1) ≤ ((t.length : Int) : ℚ) := by exact_mod_cast hB1
      simpa using this
  · exact ⟨by omega, he0b⟩
  · exact ⟨by omega, he0b⟩

lemma maxCharsOf_ge (mt : ℚ) : 400 ≤ maxCharsOf mt := by
  unfold maxCharsOf safeMaxTokens
  have h1 : (100 : ℚ) ≤ max 100 (min mt 2000) := le_max_left _ _
  have h2 : (400 : ℚ) ≤ max 100 (min mt 2000) * 4 := by linarith
  exact le_min h2 (by norm_num)

lemma chunkLoop_cons_of_seg (t : Str) (mc ov start : ℚ) (count : Nat)
    (reached : Bool) (fuel : Nat) (hg : start < (t.length : ℚ) ∧ count < 50)
    (hseg : jsTrim (jsSlice t ⌊start⌋ ⌊windowEnd t mc start⌋) ≠ []) :
    (chunkLoop t mc ov start count reached (fuel + 1)).1 =
      jsTrim (jsSlice t ⌊start⌋ ⌊windowEnd t mc start⌋) ::
        (chunkLoop t mc ov (stepStart (windowEnd t mc start) ov start) (count + 1)
          (reached || decide (windowEnd t mc start = (t.length : ℚ))) fuel).1 := by
  rw [chunkLoop, if_pos hg]
  simp only [if_neg hseg]

lemma chunkText_ne_nil (t : Str) (mt ot : ℚ) (h : jsTrim t ≠ []) :
    chunkText t mt ot ≠ [] := by
  simp only [chunkText, chunkTextFull]
  have ht : t ≠ [] := by
    intro h2
    rw [h2] at h
    exact h rfl
  rw [if_neg ht, if_neg h]
  split_ifs with h3
  · simp
  · -- loop case: the first window produces a non-empty segment
    push_neg at h3
    have hmc := maxCharsOf_ge mt
    have hlen : (0 : ℚ) < ((jsTrim t).length : ℚ) := by linarith
    have hfacts := floor_windowEnd_facts (jsTrim t) (maxCharsOf mt) 0
      le_rfl hlen (by linarith)
    have hf0 : ⌊(0 : ℚ)⌋ = 0 := Int.floor_zero
    have hE1 : (0 : Int) < ⌊windowEnd (jsTrim t) (maxCharsOf mt) 0⌋ := by
      rw [← hf0]
      exact hfacts.1
    have hE2 : ⌊windowEnd (jsTrim t) (maxCharsOf mt) 0⌋ ≤ ((jsTrim t).length : Int) := by
      have := Int.floor_le_floor hfacts.2
      rwa [Int.floor_natCast] at this
    -- the slice is a non-empty prefix of the trimmed text
    obtain ⟨c, x, hcx⟩ : ∃ c x, jsTrim t = c :: x := by
      cases hcx : jsTrim t with
      | nil => exact absurd hcx h
      | cons c x => exact ⟨c, x, rfl⟩
    have hslice : jsSlice (jsTrim t) ⌊(0 : ℚ)⌋ ⌊windowEnd (jsTrim t) (maxCharsOf mt) 0⌋ =
        (jsTrim t).take (⌊windowEnd (jsTrim t) (maxCharsOf mt) 0⌋).toNat := by
      unfold jsSlice
      rw [hf0]
      simp only [max_self, List.drop_zero]
      have hmax : max ⌊windowEnd (jsTrim t) (maxCharsOf mt) 0⌋ 0 =
          ⌊windowEnd (jsTrim t) (maxCharsOf mt) 0⌋ := max_eq_left (by omega)
      have hmin0 : min (0 : Int) ((jsTrim t).length : Int) = 0 := min_eq_left (by omega)
      have hminE : min ⌊windowEnd (jsTrim t) (maxCharsOf mt) 0⌋ ((jsTrim t).length : Int) =
          ⌊windowEnd (jsTrim t) (maxCharsOf mt) 0⌋ := min_eq_left hE2
      rw [hmax, hmin0, hminE]
      simp
    have hseg : jsTrim (jsSlice (jsTrim t) ⌊(0 : ℚ)⌋
        ⌊windowEnd (jsTrim t) (maxCharsOf mt) 0⌋) ≠ [] := by
      rw [hslice]
      set n := (⌊windowEnd (jsTrim t) (maxCharsOf mt) 0⌋).toNat with hn
      have hnpos : 0 < n := by omega
      have hk : n = n - 1 + 1 := by omega
      rw [hk, hcx, List.take_succ_cons]
      exact jsTrim_cons_ne_nil c _ (head_jsTrim_not_ws t c x hcx)
    have hlen0 : (jsTrim t).length ≠ 0 := by simpa using h
    obtain ⟨k, hk⟩ : ∃ k, (jsTrim t).length = k + 1 := ⟨(jsTrim t).length - 1, by omega⟩
    rw [hk]
    rw [chunkLoop_cons_of_seg _ _ _ _ _ _ k ⟨hlen, by norm_num⟩ hseg]
    simp

lemma storeArticle_ok (st : StoreState) (a : Article)
    (embed : Str → Option (List ℚ)) (h : jsTrim a.text ≠ []) :
    storeArticle st a embed =
      (⟨(a.id, { a with chunks := mkChunks a embed (chunkText a.text 800 100) 0 }) ::
          st.articles.filter (fun p => ¬p.1 = a.id),
        st.chunks.filter (fun c => ¬c.articleId = a.id) ++
          mkChunks a embed (chunkText a.text 800 100) 0⟩, none) := by
  simp only [storeArticle]
  rw [if_neg h, if_neg (chunkText_ne_nil a.text 800 100 h)]

lemma mkChunks_articleId (a : Article) (embed : Str → Option (List ℚ)) :
    ∀ (segs : List Str) (i : Nat), ∀ c ∈ mkChunks a embed segs i,
      c.articleId = a.id := by
  intro segs
  induction segs with
  | nil => intro i c hc; simp [mkChunks] at hc
  | cons s rest ih =>
      intro i c hc
      rw [mkChunks] at hc
      cases hemb : embed s with
      | some e =>
          rw [hemb] at hc
          rcases List.mem_cons.mp hc with h1 | h1
          · rw [h1]
          · exact ih _ _ h1
      | none =>
          rw [hemb] at hc
          exact ih _ _ hc

lemma filter_mkChunks_self (a : Article) (embed : Str → Option (List ℚ))
    (segs : List Str) (i : Nat) :
    (mkChunks a embed segs i).filter (fun c => c.articleId = a.id) =
      mkChunks a embed segs i :=
  List.filter_eq_self.mpr (fun c hc => by
    simp [mkChunks_articleId a embed segs i c hc])

lemma filter_remaining_nil (l : List ArticleChunk) (x : Str) :
    (l.filter (fun c => ¬c.articleId = x)).filter (fun c => c.articleId = x) = [] := by
  rw [List.filter_filter]
  apply List.filter_eq_nil_iff.mpr
  intro c _
  by_cases hc : c.articleId = x <;> simp [hc]

lemma storeArticle_generation (st : StoreState) (a : Article)
    (embed : Str → Option (List ℚ)) (h : jsTrim a.text ≠ []) :
    (storeArticle st a embed).1.chunks.filter (fun c => c.articleId = a.id) =
      mkChunks a embed (chunkText a.text 800 100) 0 := by
  rw [storeArticle_ok st a embed h]
  simp only [List.filter_append]
  rw [filter_remaining_nil, filter_mkChunks_self]
  simp

lemma mkChunks_map_index_all_some (a : Article) (embed : Str → Option (List ℚ))
    (hall : ∀ s : Str, (embed s).isSome) :
    ∀ (segs : List Str) (i : Nat),
      (mkChunks a embed segs i).map (fun c => c.chunkIndex) =
        List.range' i segs.length := by
  intro segs
  induction segs with
  | nil => intro i; simp [mkChunks]
  | cons s rest ih =>
      intro i
      rw [mkChunks]
      cases hemb : embed s with
      | some e =>
          simp only [List.map_cons, List.length_cons, List.range'_succ]
          rw [ih]
      | none =>
          have := hall s
          rw [hemb] at this
          simp at this

/-- C3, amended: the `chunkIndex` of every stored chunk is the ordinal of its
segment in Chunker order, so when every per-segment embedding call succeeds
the chunk indexes of the article's stored generation are exactly the
contiguous range `0 .. n-1` for the `n` produced segments.  (When some calls
fail, the surviving chunks keep their original ordinals, leaving gaps.) -/
theorem storeArticle_chunkIndex_contiguous_all_embed (st : StoreState)
    (a : Article) (embed : Str → Option (List ℚ))
    (ht : jsTrim a.text ≠ []) (hall : ∀ s : Str, (embed s).isSome) :
    ((storeArticle st a embed).1.chunks.filter
        (fun c => c.articleId = a.id)).map (fun c => c.chunkIndex) =
      List.range (chunkText a.text 800 100).length := by
  rw [storeArticle_generation st a embed ht,
    mkChunks_map_index_all_some a embed hall, List.range_eq_range']

/-- Witness for the amended C3 at a concrete article whose embedding calls all
succeed. -/
theorem storeArticle_chunkIndex_contiguous_all_embed_witness :
    jsTrim tinyArticle.text ≠ [] ∧
      ((storeArticle ⟨[], []⟩ tinyArticle (fun _ => some [1])).1.chunks.filter
          (fun c => c.articleId = tinyArticle.id)).map (fun c => c.chunkIndex) =
        List.range (chunkText tinyArticle.text 800 100).length :=
  ⟨by decide, storeArticle_chunkIndex_contiguous_all_embed _ _ _
    (by decide) (fun s => rfl)⟩

/-- C10: an article that passes the text validation always produces at least
one segment under the default budgets, so the zero-segments early return of
`storeArticle` is unreachable there: the call takes the full path, which
installs the article (with its freshly built generation) in the article index
and appends the generation to the chunk collection. -/
theorem storeArticle_valid_never_early_return (st : StoreState) (a : Article)
    (embed : Str → Option (List ℚ)) (h : jsTrim a.text ≠ []) :
    chunkText a.text 800 100 ≠ [] ∧
      storeArticle st a embed =
        (⟨(a.id, { a with chunks := mkChunks a embed (chunkText a.text 800 100) 0 }) ::
            st.articles.filter (fun p => ¬p.1 = a.id),
          st.chunks.filter (fun c => ¬c.articleId = a.id) ++
            mkChunks a embed (chunkText a.text 800 100) 0⟩, none) :=
  ⟨chunkText_ne_nil _ _ _ h, storeArticle_ok st a embed h⟩

/-- Witness for C10 at a concrete valid article. -/
theorem storeArticle_valid_never_early_return_witness :
    jsTrim tinyArticle.text ≠ [] ∧ chunkText tinyArticle.text 800 100 ≠ [] :=
  ⟨by decide, (storeArticle_valid_never_early_return ⟨[], []⟩ tinyArticle
    (fun _ => none) (by decide)).1⟩

/-- C5: after a second `storeArticle` call for the same article id (the second
call passing validation), the chunks stored under that id are exactly the
second call's generation: re-ingestion removed every chunk of the first
generation before inserting the new one, whatever the starting state held. -/
theorem storeArticle_replaces_generation (st : StoreState) (a b : Article)
    (e1 e2 : Str → Option (List ℚ)) (hb : jsTrim b.text ≠ [])
    (hid : b.id = a.id) :
    ((storeArticle (storeArticle st a e1).1 b e2).1.chunks.filter
        (fun c => c.articleId = a.id)) =
      mkChunks b e2 (chunkText b.text 800 100) 0 ∧
      (storeArticle (storeArticle st a e1).1 b e2).2 = none := by
  constructor
  · rw [← hid]
    exact storeArticle_generation _ b e2 hb
  · rw [storeArticle_ok _ b e2 hb]

/-- Witness for C5: ingest `tinyArticle`, then re-ingest the same id with
different text, and observe exactly the second generation under that id. -/
theorem storeArticle_replaces_generation_witness :
    jsTrim tinyArticleB.text ≠ [] ∧ tinyArticleB.id = tinyArticle.id ∧
      ((storeArticle (storeArticle ⟨[], []⟩ tinyArticle (fun _ => some [1])).1
          tinyArticleB (fun _ => some [2])).1.chunks.filter
        (fun c => c.articleId = tinyArticle.id)) =
      mkChunks tinyArticleB (fun _ => some [2])
        (chunkText tinyArticleB.text 800 100) 0 :=
  ⟨by decide, by decide, (storeArticle_replaces_generation _ _ _ _ _
    (by decide) (by decide)).1⟩

lemma lastIdxAux_no_match (c : Nat) (pos : Int) (a : Nat) (hne : ¬a = c) :
    ∀ (n : Nat) (i best : Int), lastIdxAux c pos (List.replicate n a) i best = best := by
  intro n
  induction n with
  | zero => intro i best; rfl
  | succ n ih =>
      intro i best
      rw [List.replicate_succ, lastIdxAux]
      rw [if_neg (fun h => hne h.2)]
      exact ih _ _

lemma jsLastIndexOf_replicate_ne (n a c : Nat) (pos : Int) (hne : ¬a = c) :
    jsLastIndexOf (List.replicate n a) c pos = -1 := by
  unfold jsLastIndexOf
  exact lastIdxAux_no_match c _ a hne n 0 (-1)

lemma c3Text_len : c3Text.length = 3201 := by
  rw [c3Text]
  exact List.length_replicate 3201 97

lemma c3Text_trim : jsTrim c3Text = c3Text := by
  apply jsTrim_of_no_ws
  intro c hc
  rw [c3Text] at hc
  rw [List.eq_of_mem_replicate hc]
  decide

lemma c3Text_ne : c3Text ≠ [] := by
  apply List.ne_nil_of_length_pos
  rw [c3Text_len]
  norm_num

lemma c3_mc : maxCharsOf 800 = 3200 := by
  unfold maxCharsOf safeMaxTokens
  rw [min_eq_left (by norm_num), max_eq_right (by norm_num), min_eq_left (by norm_num)]
  norm_num

lemma c3_ov : overlapCharsOf 800 100 = 400 := by
  unfold overlapCharsOf
  rw [c3_mc, min_eq_left (by norm_num)]
  norm_num

lemma c3_w1 : windowEnd c3Text 3200 0 = 3200 := by
  unfold windowEnd
  rw [c3Text_len]
  rw [show ((0 : ℚ) + 3200) = 3200 by norm_num]
  rw [min_eq_left (by push_cast; norm_num), if_pos (by push_cast; norm_num)]
  rw [show ⌊(3200 : ℚ)⌋ = (3200 : Int) by norm_num]
  rw [c3Text, jsLastIndexOf_replicate_ne _ _ _ _ (by norm_num),
    jsLastIndexOf_replicate_ne _ _ _ _ (by norm_num)]
  rw [if_neg (by norm_num)]

lemma c3_w2 : windowEnd c3Text 3200 2800 = 3201 := by
  unfold windowEnd
  rw [c3Text_len]
  rw [min_eq_right (by push_cast; norm_num), if_neg (by norm_num)]
  push_cast
  norm_num

lemma c3_slice1 : jsSlice c3Text ⌊(0 : ℚ)⌋ ⌊(3200 : ℚ)⌋ = List.replicate 3200 97 := by
  rw [Int.floor_zero, show ⌊(3200 : ℚ)⌋ = (3200 : Int) by norm_num]
  unfold jsSlice
  rw [c3Text_len]
  simp only [Nat.cast_ofNat]
  rw [show (max (0 : Int) 0) = 0 by norm_num, show (min (0 : Int) 3201) = 0 by norm_num,
    show (max (3200 : Int) 0) = 3200 by norm_num,
    show (min (3200 : Int) 3201) = 3200 by norm_num]
  rw [show (Int.toNat 0) = 0 by rfl, show (Int.toNat 3200) = 3200 by rfl]
  rw [c3Text, List.drop_zero, List.take_replicate]
  norm_num

lemma c3_slice2 : jsSlice c3Text ⌊(2800 : ℚ)⌋ ⌊(3201 : ℚ)⌋ = List.replicate 401 97 := by
  rw [show ⌊(2800 : ℚ)⌋ = (2800 : Int) by norm_num,
    show ⌊(3201 : ℚ)⌋ = (3201 : Int) by norm_num]
  unfold jsSlice
  rw [c3Text_len]
  simp only [Nat.cast_ofNat]
  rw [show (max (2800 : Int) 0) = 2800 by norm_num,
    show (min (2800 : Int) 3201) = 2800 by norm_num,
    show (max (3201 : Int) 0) = 3201 by norm_num,
    show (min (3201 : Int) 3201) = 3201 by norm_num]
  rw [show (Int.toNat 2800) = 2800 by rfl, show (Int.toNat 3201) = 3201 by rfl]
  rw [c3Text, List.drop_replicate, List.take_replicate]
  norm_num

lemma replicate97_trim (n : Nat) :
    jsTrim (List.replicate n 97) = List.replicate n 97 :=
  jsTrim_of_no_ws _ (fun c hc => by rw [List.eq_of_mem_replicate hc]; decide)

lemma c3_step1 : stepStart 3200 400 0 = 2800 := by
  unfold stepStart
  rw [show (3200 : ℚ) - 400 = 2800 by norm_num, show (0 : ℚ) + 1 = 1 by norm_num,
    max_eq_left (by norm_num)]

lemma c3_step2 : stepStart 3201 400 2800 = 2801 := by
  unfold stepStart
  rw [show (3201 : ℚ) - 400 = 2801 by norm_num, show (2800 : ℚ) + 1 = 2801 by norm_num,
    max_self]

lemma c3_chunkText : ∃ rest : List Str, chunkText c3Text 800 100 =
    List.replicate 3200 97 :: List.replicate 401 97 :: rest := by
  simp only [chunkText, chunkTextFull]
  rw [if_neg c3Text_ne, c3Text_trim, if_neg c3Text_ne, c3_mc, c3_ov]
  rw [if_neg (by rw [c3Text_len]; push_cast; norm_num)]
  rw [c3Text_len]
  rw [show (3201 : Nat) = 3200 + 1 by norm_num]
  have hg1 : (0 : ℚ) < (c3Text.length : ℚ) ∧ (0 : Nat) < 50 := by
    rw [c3Text_len]
    constructor
    · push_cast
      norm_num
    · norm_num
  have hseg1 : jsTrim (jsSlice c3Text ⌊(0 : ℚ)⌋ ⌊windowEnd c3Text 3200 0⌋) ≠ [] := by
    rw [c3_w1, c3_slice1, replicate97_trim]
    apply List.ne_nil_of_length_pos
    rw [List.length_replicate]
    norm_num
  rw [chunkLoop_cons_of_seg c3Text 3200 400 0 0 false 3200 hg1 hseg1]
  rw [c3_w1, c3_slice1, replicate97_trim, c3_step1]
  have hd1 : decide ((3200 : ℚ) = (c3Text.length : ℚ)) = false := by
    rw [decide_eq_false_iff_not, c3Text_len]
    push_cast
    norm_num
  rw [hd1, Bool.or_false]
  rw [show (3200 : Nat) = 3199 + 1 by norm_num]
  have hg2 : (2800 : ℚ) < (c3Text.length : ℚ) ∧ (0 + 1 : Nat) < 50 := by
    rw [c3Text_len]
    constructor
    · push_cast
      norm_num
    · norm_num
  have hseg2 : jsTrim (jsSlice c3Text ⌊(2800 : ℚ)⌋ ⌊windowEnd c3Text 3200 2800⌋) ≠ [] := by
    rw [c3_w2, c3_slice2, replicate97_trim]
    apply List.ne_nil_of_length_pos
    rw [List.length_replicate]
    norm_num
  rw [chunkLoop_cons_of_seg c3Text 3200 400 2800 (0 + 1) false 3199 hg2 hseg2]
  rw [c3_w2, c3_slice2, replicate97_trim]
  exact ⟨_, rfl⟩

lemma c3_storedIdx : ∃ restIdx : List Nat,
    ((storeArticle ⟨[], []⟩ c3Article c3Embed).1.chunks.filter
        (fun c => c.articleId = c3Article.id)).map (fun c => c.chunkIndex) =
      1 :: restIdx := by
  have htr : jsTrim c3Article.text ≠ [] := by
    show jsTrim c3Text ≠ []
    rw [c3Text_trim]
    rw [c3Text]
    apply List.ne_nil_of_length_pos
    rw [List.length_replicate]
    norm_num
  rw [storeArticle_generation _ _ _ htr]
  obtain ⟨rest, hrest⟩ := c3_chunkText
  rw [show c3Article.text = c3Text from rfl, hrest]
  have h1 : c3Embed (List.replicate 3200 97) = none := by
    unfold c3Embed
    rw [List.length_replicate]
    simp
  have h2 : c3Embed (List.replicate 401 97) = some [1] := by
    unfold c3Embed
    rw [List.length_replicate]
    norm_num
  rw [mkChunks, h1, mkChunks, h2]
  refine ⟨(mkChunks c3Article c3Embed rest (0 + 1 + 1)).map (fun c => c.chunkIndex), ?_⟩
  rw [List.map_cons]

/-- Counterexample to C3 as stated: for a 3201-character article whose first
segment's embedding call fails while the later ones succeed, the stored chunk
indexes start at 1, not 0 — they are not the contiguous range over the stored
chunks. -/
theorem storeArticle_chunkIndex_counterexample :
    ((storeArticle ⟨[], []⟩ c3Article c3Embed).1.chunks.filter
        (fun c => c.articleId = c3Article.id)).map (fun c => c.chunkIndex) ≠
      List.range (((storeArticle ⟨[], []⟩ c3Article c3Embed).1.chunks.filter
          (fun c => c.articleId = c3Article.id)).map (fun c => c.chunkIndex)).length := by
  obtain ⟨restIdx, h⟩ := c3_storedIdx
  rw [h]
  intro hcontra
  rw [List.length_cons, List.range_succ_eq_map] at hcontra
  have := List.head_eq_of_cons_eq hcontra
  omega

lemma splitRuns_ne_nil (p : Nat → Bool) : ∀ q : Str, splitRuns p q ≠ [] := by
  intro q
  induction q with
  | nil => simp [splitRuns]
  | cons c cs ih =>
      cases cs with
      | nil =>
          rw [splitRuns.eq_2]
          split_ifs
          · simp
          · rw [splitRuns.eq_1]
            simp
      | cons c2 cs2 =>
          rw [splitRuns.eq_3]
          obtain ⟨w, ws, hws⟩ : ∃ w ws, splitRuns p (c2 :: cs2) = w :: ws := by
            cases hs : splitRuns p (c2 :: cs2) with
            | nil => exact absurd hs ih
            | cons w ws => exact ⟨w, ws, rfl⟩
          split_ifs
          · exact ih
          · simp
          · rw [hws]
            simp

lemma splitRuns_no_empty (p : Nat → Bool) :
    ∀ (q : Str) (hq : q ≠ []), p (q.getLast hq) = false →
      (∀ w ∈ (splitRuns p q).tail, w ≠ []) ∧
        (p (q.head hq) = false → ∀ w ∈ splitRuns p q, w ≠ []) := by
  intro q
  induction q with
  | nil => intro hq; exact absurd rfl hq
  | cons c cs ih =>
      intro hq hlast
      cases cs with
      | nil =>
          have hc : p c = false := by simpa using hlast
          rw [splitRuns.eq_2, if_neg (by simp [hc]), splitRuns.eq_1]
          constructor
          · intro w hw
            simp at hw
          · intro _ w hw
            simp at hw
            simp [hw]
      | cons c2 cs2 =>
          have hne2 : c2 :: cs2 ≠ [] := by simp
          have hlast2 : p ((c2 :: cs2).getLast hne2) = false := by
            rw [← List.getLast_cons hne2]
            exact hlast
          have ih2 := ih hne2 hlast2
          by_cases hc : p c
          · have hhead : p ((c :: c2 :: cs2).head hq) = true := by
              rw [List.head_cons]
              exact hc
          -- p c = true contradicts any head hypothesis; only the tail part matters
            rw [splitRuns.eq_3, if_pos hc]
            by_cases hc2 : p c2
            · rw [if_pos hc2]
              refine ⟨ih2.1, fun hf => ?_⟩
              rw [List.head_cons] at hf
              rw [hf] at hc
              exact absurd hc (by simp)
            · rw [if_neg hc2]
              constructor
              · intro w hw
                rw [List.tail_cons] at hw
                exact ih2.2 (by simpa using hc2) w hw
              · intro hf
                rw [List.head_cons] at hf
                rw [hf] at hc
                exact absurd hc (by simp)
          · obtain ⟨w, ws, hws⟩ : ∃ w ws, splitRuns p (c2 :: cs2) = w :: ws := by
              cases hs : splitRuns p (c2 :: cs2) with
              | nil => exact absurd hs (splitRuns_ne_nil p _)
              | cons w ws => exact ⟨w, ws, rfl⟩
            rw [splitRuns.eq_3, if_neg hc, hws]
            have hwsmem : ∀ u ∈ ws, u ≠ [] := by
              intro u hu
              apply ih2.1
              rw [hws]
              simpa using hu
            constructor
            · intro u hu
              rw [List.tail_cons] at hu
              exact hwsmem u hu
            · intro _ u hu
              rcases List.mem_cons.mp hu with h1 | h1
              · rw [h1]
                simp
              · exact hwsmem u h1

lemma wsChar_lowerChar (c : Nat) : wsChar (lowerChar c) = wsChar c := by
  unfold lowerChar
  split_ifs with h
  · have h1 : wsChar (c + 32) = false := by
      unfold wsChar
      simp only [Bool.or_eq_false_iff, decide_eq_false_iff_not]
      omega
    have h2 : wsChar c = false := by
      unfold wsChar
      simp only [Bool.or_eq_false_iff, decide_eq_false_iff_not]
      omega
    rw [h1, h2]
  · rfl

lemma head_eq_of_head_opt {l : Str} {a : Nat} (hl : l ≠ [])
    (h : l.head? = some a) : l.head hl = a := by
  rw [List.head?_eq_head hl] at h
  exact Option.some.inj h

lemma getLast_eq_of_getLast_opt {l : Str} {a : Nat} (hl : l ≠ [])
    (h : l.getLast? = some a) : l.getLast hl = a := by
  rw [List.getLast?_eq_getLast l hl] at h
  exact Option.some.inj h

lemma getLast_opt_map (f : Nat → Nat) (l : Str) :
    (l.map f).getLast? = l.getLast?.map f := by
  rw [List.getLast?_eq_head?_reverse, List.getLast?_eq_head?_reverse,
    ← List.map_reverse, List.head?_map]

lemma specWords_eq_of_trimmed (q : Str) (hq : q ≠ []) (htr : jsTrim q = q) :
    specWords (lowerStr q) = jsSplitWs (lowerStr q) := by
  obtain ⟨c, x, hcx⟩ : ∃ c x, q = c :: x := by
    cases q with
    | nil => exact absurd rfl hq
    | cons c x => exact ⟨c, x, rfl⟩
  have hlq : lowerStr q ≠ [] := by
    rw [hcx]
    simp [lowerStr]
  have hhead : wsChar ((lowerStr q).head hlq) = false := by
    have h1 : wsChar c = false := head_jsTrim_not_ws q c x (htr.trans hcx)
    have h2 : (lowerStr q).head hlq = lowerChar c :=
      head_eq_of_head_opt hlq (by rw [hcx]; simp [lowerStr])
    rw [h2, wsChar_lowerChar]
    exact h1
  have h0 : jsTrim q ≠ [] := by rw [htr]; exact hq
  have hql : wsChar (q.getLast hq) = false := by
    have h1 := getLast_jsTrim_not_ws q h0
    have h2 : (jsTrim q).getLast h0 = q.getLast hq := by
      apply getLast_eq_of_getLast_opt
      rw [htr]
      exact (List.getLast?_eq_getLast q hq).symm ▸ rfl
    rw [h2] at h1
    exact h1
  have hlast : wsChar ((lowerStr q).getLast hlq) = false := by
    have h2 : (lowerStr q).getLast hlq = lowerChar (q.getLast hq) := by
      apply getLast_eq_of_getLast_opt
      unfold lowerStr
      rw [getLast_opt_map, List.getLast?_eq_getLast q hq]
      rfl
    rw [h2, wsChar_lowerChar]
    exact hql
  unfold specWords jsSplitWs
  apply List.filter_eq_self.mpr
  intro w hw
  have := (splitRuns_no_empty wsChar (lowerStr q) hlq hlast).2 hhead w hw
  simpa using this

lemma keywordScore_eq_spec (q : Str) (hq : q ≠ []) (htr : jsTrim q = q) :
    keywordScore q = specKeywordScore q := by
  funext ch
  unfold keywordScore specKeywordScore
  dsimp only
  rw [specWords_eq_of_trimmed q hq htr]

/-- C7, amended: for a query that is non-empty and carries no leading or
trailing whitespace, the keyword-fallback search behaves exactly as the
specification describes.  (For other queries, JavaScript's
`split(/\s+/)` produces empty-string tokens, each of which matches every
title and body and adds 3 + 1 points to every chunk, so the code and the
specification disagree; see the counterexample.) -/
theorem searchArticles_keyword_matches_spec (chunks : List ArticleChunk)
    (loaded : Option (List ArticleChunk)) (embed : Str → Option (List ℚ))
    (sim : List ℚ → List ℚ → ℚ) (q : Str) (limit : Nat)
    (hq : q ≠ []) (htr : jsTrim q = q)
    (hmode : (effectiveChunks chunks loaded).filter (fun c => c.embedding.isSome) = []) :
    (searchArticles chunks loaded embed sim q limit).result =
      specKeywordSearch (effectiveChunks chunks loaded) q limit := by
  by_cases hcs : effectiveChunks chunks loaded = []
  · simp only [searchArticles, hcs]
    unfold specKeywordSearch stableSortDesc
    simp [List.insertionSort]
  · simp only [searchArticles]
    rw [if_neg hcs, if_pos hmode]
    unfold specKeywordSearch
    rw [keywordScore_eq_spec q hq htr]

/-- Counterexample to C7 as stated: for the query consisting of one space,
JavaScript's split produces two empty-string tokens, each matching every
title and body, so the code gives `chunkPlainX` a score of 8 and returns it,
while the scoring described by the claim gives 0 and excludes it. -/
theorem searchArticles_keyword_counterexample :
    (searchArticles [chunkPlainX] none (fun _ => none) (fun _ _ => 0)
        (ofStr " ") 1).result = [chunkPlainX] ∧
      specKeywordSearch (effectiveChunks [chunkPlainX] none) (ofStr " ") 1 = [] := by
  constructor
  · with_unfolding_all decide
  · with_unfolding_all decide

/-- Witness for the amended C7 at a concrete trimmed query. -/
theorem searchArticles_keyword_matches_spec_witness :
    ofStr "android" ≠ [] ∧ jsTrim (ofStr "android") = ofStr "android" ∧
      (effectiveChunks [chunkPlainX] none).filter
        (fun c => c.embedding.isSome) = [] ∧
      (searchArticles [chunkPlainX] none (fun _ => none) (fun _ _ => 0)
          (ofStr "android") 5).result =
        specKeywordSearch (effectiveChunks [chunkPlainX] none) (ofStr "android") 5 :=
  ⟨by decide, by decide, by decide,
    searchArticles_keyword_matches_spec _ _ _ _ _ _ (by decide) (by decide) (by decide)⟩

/-- C1 evaluation, exhibiting the code bug: on a store with no chunks and no
readable snapshot, `searchArticles` does invoke the demo seeder, but because
`createDemoChunks()` is called without `await` none of its chunks is appended
before the synchronous re-check, so the call returns the empty list — while
one awaited run of the seeder would have produced its three chunks (it keeps
every item even when an embedding call fails), which is what the claim and the
specification describe. -/
theorem searchArticles_unseeded_returns_empty :
    searchArticles [] none (fun _ => some [1]) (fun _ _ => 0) (ofStr "test") 5 =
      { result := [], seederInvoked := true } ∧
      (createDemoChunks (fun _ => some [1]) (ofStr "now")).length = 3 ∧
      (createDemoChunks (fun _ => none) (ofStr "now")).length = 3 := by
  refine ⟨by decide, by decide, by decide⟩

lemma floor_max_q (a b : ℚ) : ⌊max a b⌋ = max ⌊a⌋ ⌊b⌋ := by
  rcases le_total a b with h | h
  · rw [max_eq_right h, max_eq_right (Int.floor_le_floor h)]
  · rw [max_eq_left h, max_eq_left (Int.floor_le_floor h)]

lemma jsSlice_eq (t : Str) (a b : Int) (ha : 0 ≤ a) (hb : b ≤ (t.length : Int))
    (hab : a ≤ b) : jsSlice t a b = (t.drop a.toNat).take (b.toNat - a.toNat) := by
  unfold jsSlice
  rw [max_eq_left ha, min_eq_left (le_trans hab hb),
    max_eq_left (le_trans ha hab), min_eq_left hb]

lemma jsSlice_mem (t : Str) (a b : Int) (c : Nat) (hc : c ∈ jsSlice t a b) :
    c ∈ t := by
  unfold jsSlice at hc
  exact List.mem_of_mem_drop (List.mem_of_mem_take hc)

lemma zipWith_drop_lengths (l : List Str) :
    (List.zipWith (fun sg d => List.drop d sg) l (l.map List.length)).flatten = [] := by
  induction l with
  | nil => simp
  | cons s rest ih =>
      simp only [List.map_cons, List.zipWith_cons_cons, List.flatten_cons, ih,
        List.drop_length]
      simp

lemma chunkLoop_reconstruct (t : Str) (mc ov : ℚ) (hmc : 1 ≤ mc) (hov : 0 ≤ ov)
    (hw : ∀ c ∈ t, wsChar c = false) :
    ∀ (fuel : Nat) (start : ℚ) (count : Nat) (segs : List Str),
      chunkLoop t mc ov start count false fuel = (segs, true) →
      0 ≤ start →
      ∀ m : Nat, ⌊start⌋ ≤ (m : Int) → m ≤ t.length →
      ∃ ds : List Nat,
        segs.length ≤ ds.length + 1 ∧
        (List.zipWith (fun sg d => List.drop d sg) segs
          (((m : Int) - ⌊start⌋).toNat :: ds)).flatten = t.drop m := by
  intro fuel
  induction fuel with
  | zero =>
      intro start count segs heq h0 m hm1 hm2
      rw [chunkLoop] at heq
      simp only [Bool.false_or, Prod.mk.injEq] at heq
      obtain ⟨hsegs, hflag⟩ := heq
      have hls : (t.length : ℚ) ≤ start := by simpa using hflag
      have hfl : (t.length : Int) ≤ ⌊start⌋ := by
        have := Int.le_floor.mpr hls
        simpa using this
      have hmlen : m = t.length := by omega
      refine ⟨[], by simp [← hsegs], ?_⟩
      rw [← hsegs, hmlen]
      simp [List.drop_length]
  | succ fuel ih =>
      intro start count segs heq h0 m hm1 hm2
      rw [chunkLoop] at heq
      by_cases h1 : start < (t.length : ℚ) ∧ count < 50
      case neg =>
        rw [if_neg h1] at heq
        simp only [Bool.false_or, Prod.mk.injEq] at heq
        obtain ⟨hsegs, hflag⟩ := heq
        have hls : (t.length : ℚ) ≤ start := by simpa using hflag
        have hfl : (t.length : Int) ≤ ⌊start⌋ := by
          have := Int.le_floor.mpr hls
          simpa using this
        have hmlen : m = t.length := by omega
        refine ⟨[], by simp [← hsegs], ?_⟩
        rw [← hsegs, hmlen]
        simp [List.drop_length]
      case pos =>
        rw [if_pos h1] at heq
        have hfacts := floor_windowEnd_facts t mc start h0 h1.1 hmc
        set e := windowEnd t mc start with hE
        have hfe_nonneg : (0 : Int) ≤ ⌊e⌋ := by
          have := Int.floor_nonneg.mpr h0
          omega
        have hfe_len : ⌊e⌋ ≤ (t.length : Int) := by
          have := Int.floor_le_floor hfacts.2
          rwa [Int.floor_natCast] at this
        have hfs_nonneg : (0 : Int) ≤ ⌊start⌋ := Int.floor_nonneg.mpr h0
        -- the segment of this window
        have hslice : jsSlice t ⌊start⌋ ⌊e⌋ =
            (t.drop (⌊start⌋).toNat).take ((⌊e⌋).toNat - (⌊start⌋).toNat) :=
          jsSlice_eq t _ _ hfs_nonneg hfe_len (by omega)
        have hsegeq : jsTrim (jsSlice t ⌊start⌋ ⌊e⌋) = jsSlice t ⌊start⌋ ⌊e⌋ :=
          jsTrim_of_no_ws _ (fun c hc => hw c (jsSlice_mem t _ _ c hc))
        have hseglen : (jsSlice t ⌊start⌋ ⌊e⌋).length =
            (⌊e⌋).toNat - (⌊start⌋).toNat := by
          rw [hslice, List.length_take, List.length_drop]
          have h3 : (⌊e⌋).toNat ≤ t.length := by omega
          omega
        have hsegne : jsTrim (jsSlice t ⌊start⌋ ⌊e⌋) ≠ [] := by
          rw [hsegeq]
          apply List.ne_nil_of_length_pos
          rw [hseglen]
          omega
        rw [if_neg hsegne] at heq
        simp only [Prod.mk.injEq] at heq
        obtain ⟨hsegs, hflag⟩ := heq
        set start2 := stepStart e ov start with hS2
        have hs2_ge : start + 1 ≤ start2 := le_max_right _ _
        have hs2_nonneg : 0 ≤ start2 := by linarith
        have hfs2_le : ⌊start2⌋ ≤ ⌊e⌋ := by
          rw [hS2]
          unfold stepStart
          rw [floor_max_q]
          have ha : ⌊e - ov⌋ ≤ ⌊e⌋ := Int.floor_le_floor (by linarith)
          have hb : ⌊start + 1⌋ ≤ ⌊e⌋ := by
            rw [Int.floor_add_one]
            omega
          omega
        by_cases he : e = (t.length : ℚ)
        case pos =>
          -- this window reaches the end of the text; every later segment is a
          -- sub-window of the tail and is dropped entirely
          have hfe_eq : ⌊e⌋ = (t.length : Int) := by
            rw [he, Int.floor_natCast]
          refine ⟨(chunkLoop t mc ov start2 (count + 1)
              (false || decide (e = (t.length : ℚ))) fuel).1.map List.length, ?_, ?_⟩
          · rw [← hsegs]
            simp
          · rw [← hsegs]
            rw [List.zipWith_cons_cons, List.flatten_cons, zipWith_drop_lengths]
            rw [hsegeq, hslice, List.drop_take, List.drop_drop]
            have hconv : ((m : Int) - ⌊start⌋).toNat = m - (⌊start⌋).toNat := by
              omega
            rw [hconv]
            have hco : (⌊start⌋).toNat + (m - (⌊start⌋).toNat) = m := by omega
            rw [hco]
            have hck : (⌊e⌋).toNat - (⌊start⌋).toNat - (m - (⌊start⌋).toNat) =
                t.length - m := by omega
            rw [hck]
            rw [List.take_of_length_le (by rw [List.length_drop])]
            simp
        case neg =>
          -- the window stops short of the end: recurse
          have hreached : (false || decide (e = (t.length : ℚ))) = false := by
            simp [he]
          rw [hreached] at hsegs hflag
          have heq2 : chunkLoop t mc ov start2 (count + 1) false fuel =
              ((chunkLoop t mc ov start2 (count + 1) false fuel).1, true) := by
            rw [Prod.ext_iff]
            exact ⟨rfl, hflag⟩
          by_cases hm3 : m ≤ (⌊e⌋).toNat
          case pos =>
            obtain ⟨ds, hlen, hjoin⟩ := ih start2 (count + 1) _ heq2 hs2_nonneg
              (⌊e⌋).toNat (by omega) (by omega)
            refine ⟨((⌊e⌋ : Int) - ⌊start2⌋).toNat :: ds, ?_, ?_⟩
            · rw [← hsegs]
              simp only [List.length_cons]
              omega
            · rw [← hsegs]
              rw [List.zipWith_cons_cons, List.flatten_cons]
              have hjoin2 : (List.zipWith (fun sg d => List.drop d sg)
                  (chunkLoop t mc ov start2 (count + 1) false fuel).1
                  ((((⌊e⌋).toNat : Int) - ⌊start2⌋).toNat :: ds)).flatten =
                  t.drop (⌊e⌋).toNat := hjoin
              have hcast : ((((⌊e⌋).toNat : Int)) - ⌊start2⌋).toNat =
                  ((⌊e⌋ : Int) - ⌊start2⌋).toNat := by
                have : (((⌊e⌋).toNat : Int)) = ⌊e⌋ := Int.toNat_of_nonneg hfe_nonneg
                rw [this]
              rw [hcast] at hjoin2
              rw [hjoin2]
              rw [hsegeq, hslice, List.drop_take, List.drop_drop]
              have hconv : ((m : Int) - ⌊start⌋).toNat = m - (⌊start⌋).toNat := by
                omega
              rw [hconv]
              have hco : (⌊start⌋).toNat + (m - (⌊start⌋).toNat) = m := by omega
              rw [hco]
              have hck : (⌊e⌋).toNat - (⌊start⌋).toNat - (m - (⌊start⌋).toNat) =
                  (⌊e⌋).toNat - m := by omega
              rw [hck]
              have : t.drop (⌊e⌋).toNat = (t.drop m).drop ((⌊e⌋).toNat - m) := by
                rw [List.drop_drop]
                congr 1
                omega
              rw [this, List.take_append_drop]
          case neg =>
            obtain ⟨ds, hlen, hjoin⟩ := ih start2 (count + 1) _ heq2 hs2_nonneg
              m (by omega) hm2
            refine ⟨((m : Int) - ⌊start2⌋).toNat :: ds, ?_, ?_⟩
            · rw [← hsegs]
              simp only [List.length_cons]
              omega
            · rw [← hsegs]
              rw [List.zipWith_cons_cons, List.flatten_cons, hjoin]
              have hdropnil : (jsTrim (jsSlice t ⌊start⌋ ⌊e⌋)).drop
                  (((m : Int) - ⌊start⌋).toNat) = [] := by
                apply List.drop_eq_nil_of_le
                rw [hsegeq, hseglen]
                omega
              rw [hdropnil]
              simp

/-- C8, amended: if the trimmed text contains no whitespace (so per-segment
trimming removes nothing) and the chunking loop covers the whole text
(`chunkComplete`), then the returned segments, each after removing a suitable
overlap-region prefix (none for the first segment), concatenate exactly to
the trimmed input text.  The original claim, over the raw input, fails on any
input with leading whitespace; see the counterexample. -/
theorem chunkText_reconstructs_trimmed (t : Str) (mt ot : ℚ) (hot : 0 ≤ ot)
    (hw : ∀ c ∈ jsTrim t, wsChar c = false)
    (hcomp : chunkComplete t mt ot = true) :
    ∃ ds : List Nat,
      (chunkText t mt ot).length ≤ ds.length + 1 ∧
      (List.zipWith (fun sg d => List.drop d sg) (chunkText t mt ot)
        (0 :: ds)).flatten = jsTrim t := by
  by_cases h1 : t = []
  · refine ⟨[], ?_, ?_⟩
    · simp [chunkText, chunkTextFull, h1]
    · simp [chunkText, chunkTextFull, h1]
      rfl
  · by_cases h2 : jsTrim t = []
    · refine ⟨[], ?_, ?_⟩
      · simp [chunkText, chunkTextFull, h1, h2]
      · simp [chunkText, chunkTextFull, h1, h2]
    · by_cases h3 : ((jsTrim t).length : ℚ) ≤ maxCharsOf mt
      · refine ⟨[], ?_, ?_⟩
        · simp [chunkText, chunkTextFull, h1, h2, h3]
        · simp [chunkText, chunkTextFull, h1, h2, h3]
      · have hcomp2 : (chunkLoop (jsTrim t) (maxCharsOf mt)
            (overlapCharsOf mt ot) 0 0 false (jsTrim t).length).2 = true := by
          simpa [chunkComplete, chunkTextFull, h1, h2, h3] using hcomp
        have hmc : (1 : ℚ) ≤ maxCharsOf mt := by
          have := maxCharsOf_ge mt
          linarith
        have hov : (0 : ℚ) ≤ overlapCharsOf mt ot := by
          apply le_min
          · have : (0 : ℚ) ≤ ot * 4 := mul_nonneg hot (by norm_num)
            linarith
          · have := maxCharsOf_ge mt
            positivity
        have heq : chunkLoop (jsTrim t) (maxCharsOf mt) (overlapCharsOf mt ot)
            0 0 false (jsTrim t).length =
            ((chunkLoop (jsTrim t) (maxCharsOf mt) (overlapCharsOf mt ot)
              0 0 false (jsTrim t).length).1, true) := by
          rw [Prod.ext_iff]
          exact ⟨rfl, hcomp2⟩
        obtain ⟨ds, hlen, hjoin⟩ := chunkLoop_reconstruct (jsTrim t)
          (maxCharsOf mt) (overlapCharsOf mt ot) hmc hov hw
          (jsTrim t).length 0 0 _ heq le_rfl 0 (by simp) (by omega)
        refine ⟨ds, ?_, ?_⟩
        · simpa [chunkText, chunkTextFull, h1, h2, h3] using hlen
        · have hzero : (((0 : Nat) : Int) - ⌊(0 : ℚ)⌋).toNat = 0 := by
            rw [Int.floor_zero]
            rfl
          rw [hzero] at hjoin
          simp only [List.drop_zero] at hjoin
          simpa [chunkText, chunkTextFull, h1, h2, h3] using hjoin

/-- Counterexample to C8 as stated: for the input consisting of a space
followed by the letter a, the single returned segment is the trimmed text,
whose characters cannot reconstruct the ORIGINAL input (the leading space was
removed), whatever overlap prefixes are ignored. -/
theorem chunkText_reconstruct_counterexample :
    ¬∃ ds : List Nat,
        (chunkText (ofStr " a") 800 100).length ≤ ds.length + 1 ∧
        (List.zipWith (fun sg d => List.drop d sg) (chunkText (ofStr " a") 800 100)
          (0 :: ds)).flatten = ofStr " a" := by
  intro ⟨ds, hlen, hjoin⟩
  have h : chunkText (ofStr " a") 800 100 = [[97]] := by
    with_unfolding_all decide
  rw [h] at hjoin
  simp [ofStr] at hjoin

/-- Witness for the amended C8 at a concrete whitespace-free input. -/
theorem chunkText_reconstructs_trimmed_witness :
    (0 : ℚ) ≤ 100 ∧ (∀ c ∈ jsTrim (ofStr "ab"), wsChar c = false) ∧
      chunkComplete (ofStr "ab") 800 100 = true ∧
      ∃ ds : List Nat,
        (chunkText (ofStr "ab") 800 100).length ≤ ds.length + 1 ∧
        (List.zipWith (fun sg d => List.drop d sg) (chunkText (ofStr "ab") 800 100)
          (0 :: ds)).flatten = jsTrim (ofStr "ab") :=
  ⟨by norm_num, by decide, by with_unfolding_all decide,
    chunkText_reconstructs_trimmed _ _ _ (by norm_num) (by decide)
      (by with_unfolding_all decide)⟩
